import Mathlib

/-!
Verification of the streaming chat relay of mini-chatbox-rag-agent.

The development shallowly embeds the line-oriented SSE parsing loop that the
repository duplicates across three transports:
  backend/apps/chat/consumers.py   (stream_llm_sync, ChatConsumer.receive)
  backend/apps/chat/views.py       (event_stream)
  backend/apps/chat/asgi_views.py  (chat_stream_asgi)
Bytes are modelled as natural numbers below 256, Python str values as lists of
characters, and the stdlib json.loads call as an executable fuel-based JSON
parser over the grammar accepted by the code paths that matter here.
-/

namespace ChatRelay

/-! ### JSON values, modelling Python objects produced by json.loads -/

/-- JSON value as produced by json.loads. Numbers are kept as a mantissa and
a decimal exponent so that integer and fractional literals both embed without
floating point. Objects keep their key/value pairs in source order; lookup
takes the last binding, matching Python dict construction where a later
duplicate key overwrites an earlier one. -/
inductive Json where
  | null : Json
  | bool (b : Bool) : Json
  | num (mantissa : Int) (exponent : Int) : Json
  | str (s : List Char) : Json
  | arr (elems : List Json) : Json
  | obj (fields : List (List Char × Json)) : Json

/-- Python truthiness of a decoded JSON value: None, False, zero, the empty
string, the empty list and the empty dict are falsy, everything else truthy. -/
def Json.truthy : Json → Bool
  | Json.null => false
  | Json.bool b => b
  | Json.num m _ => m != 0
  | Json.str s => !s.isEmpty
  | Json.arr l => !l.isEmpty
  | Json.obj f => !f.isEmpty

/-- Dictionary lookup dict.get(key): the value of the last binding of the key,
or none when the key is absent. -/
def jsonGet (fields : List (List Char × Json)) (key : List Char) : Option Json :=
  match fields with
  | [] => none
  | (k, v) :: rest =>
      match jsonGet rest key with
      | some w => some w
      | none => if k = key then some v else none

/-! ### UTF-8 decoding, modelling bytes.decode on a line -/

/-- Whether a byte is a UTF-8 continuation byte. -/
def isCont (b : Nat) : Bool := 0x80 ≤ b && b < 0xC0

/-- Strict UTF-8 decoding of a byte list, as Python bytes.decode with the
default strict error handler: rejects stray continuation bytes, overlong
encodings, surrogates and code points above 0x10FFFF. Returns none exactly
when Python raises UnicodeDecodeError. -/
def decodeUtf8 : List Nat → Option (List Char)
  | [] => some []
  | b :: rest =>
      if b < 0x80 then
        (decodeUtf8 rest).map (fun cs => Char.ofNat b :: cs)
      else if b < 0xC2 then none
      else if b < 0xE0 then
        match rest with
        | b1 :: rest1 =>
            if isCont b1 then
              (decodeUtf8 rest1).map (fun cs => Char.ofNat ((b - 0xC0) * 64 + (b1 - 0x80)) :: cs)
            else none
        | _ => none
      else if b < 0xF0 then
        match rest with
        | b1 :: b2 :: rest2 =>
            if isCont b1 && isCont b2 &&
               (b != 0xE0 || 0xA0 ≤ b1) && (b != 0xED || b1 < 0xA0) then
              (decodeUtf8 rest2).map (fun cs =>
                Char.ofNat ((b - 0xE0) * 4096 + (b1 - 0x80) * 64 + (b2 - 0x80)) :: cs)
            else none
        | _ => none
      else if b < 0xF5 then
        match rest with
        | b1 :: b2 :: b3 :: rest3 =>
            if isCont b1 && isCont b2 && isCont b3 &&
               (b != 0xF0 || 0x90 ≤ b1) && (b != 0xF4 || b1 < 0x90) then
              (decodeUtf8 rest3).map (fun cs =>
                Char.ofNat ((b - 0xF0) * 262144 + (b1 - 0x80) * 4096 +
                  (b2 - 0x80) * 64 + (b3 - 0x80)) :: cs)
            else none
        | _ => none
      else none

/-! ### Python string helpers -/

/-- Whitespace stripped by Python str.strip with no argument, restricted to
the ASCII range that can occur on an SSE line. -/
def isPySpace (c : Char) : Bool :=
  c = ' ' || c = '\t' || c = '\n' || c = '\r' || c = '\x0b' || c = '\x0c'

/-- Python str.strip: drop leading and trailing whitespace. -/
def pyStrip (cs : List Char) : List Char :=
  ((cs.dropWhile isPySpace).reverse.dropWhile isPySpace).reverse

/-- Python str.endswith for the suffixes the relay checks. -/
def pyEndsWith (sfx u : List Char) : Bool :=
  sfx.reverse.isPrefixOf u.reverse

/-! ### json.loads, as an executable fuel-based parser

The relay calls the Python stdlib json.loads on each stripped line. The
parser below implements the JSON grammar that call accepts: values are
objects, arrays, strings with the standard escapes, numbers, true, false and
null; raw control characters inside strings are rejected; surrogate escape
pairs are combined. The stdlib extensions NaN/Infinity and lone surrogate
escapes are not representable here and are treated as parse failures; no
claim depends on them. -/

/-- JSON structural whitespace. -/
def isJsonWs (c : Char) : Bool := c = ' ' || c = '\t' || c = '\n' || c = '\r'

/-- Skip structural whitespace. -/
def skipWs (cs : List Char) : List Char := cs.dropWhile isJsonWs

/-- ASCII digit test. -/
def isDigitC (c : Char) : Bool := '0' ≤ c && c ≤ '9'

/-- Value of an ASCII digit. -/
def digitVal (c : Char) : Nat := c.toNat - 48

/-- Value of a hex digit, or none. -/
def hexVal (c : Char) : Option Nat :=
  if '0' ≤ c && c ≤ '9' then some (c.toNat - 48)
  else if 'a' ≤ c && c ≤ 'f' then some (c.toNat - 87)
  else if 'A' ≤ c && c ≤ 'F' then some (c.toNat - 55)
  else none

/-- Body of a JSON string, starting just after the opening quote. Returns the
decoded characters and the input remaining after the closing quote. -/
def parseStringBody : Nat → List Char → Option (List Char × List Char)
  | 0, _ => none
  | fuel + 1, cs =>
      match cs with
      | [] => none
      | c :: rest =>
          if c = '"' then some ([], rest)
          else if c = '\\' then
            match rest with
            | [] => none
            | e :: rest1 =>
                if e = '"' ∨ e = '\\' ∨ e = '/' then
                  (parseStringBody fuel rest1).map (fun p => (e :: p.1, p.2))
                else if e = 'b' then
                  (parseStringBody fuel rest1).map (fun p => ('\x08' :: p.1, p.2))
                else if e = 'f' then
                  (parseStringBody fuel rest1).map (fun p => ('\x0c' :: p.1, p.2))
                else if e = 'n' then
                  (parseStringBody fuel rest1).map (fun p => ('\n' :: p.1, p.2))
                else if e = 'r' then
                  (parseStringBody fuel rest1).map (fun p => ('\r' :: p.1, p.2))
                else if e = 't' then
                  (parseStringBody fuel rest1).map (fun p => ('\t' :: p.1, p.2))
                else if e = 'u' then
                  match rest1 with
                  | h1 :: h2 :: h3 :: h4 :: rest2 =>
                      match hexVal h1, hexVal h2, hexVal h3, hexVal h4 with
                      | some v1, some v2, some v3, some v4 =>
                          let n := ((v1 * 16 + v2) * 16 + v3) * 16 + v4
                          if 0xD800 ≤ n ∧ n < 0xDC00 then
                            match rest2 with
                            | '\\' :: 'u' :: g1 :: g2 :: g3 :: g4 :: rest3 =>
                                match hexVal g1, hexVal g2, hexVal g3, hexVal g4 with
                                | some w1, some w2, some w3, some w4 =>
                                    let m := ((w1 * 16 + w2) * 16 + w3) * 16 + w4
                                    if 0xDC00 ≤ m ∧ m < 0xE000 then
                                      (parseStringBody fuel rest3).map (fun p =>
                                        (Char.ofNat (0x10000 + (n - 0xD800) * 0x400 + (m - 0xDC00)) :: p.1, p.2))
                                    else none
                                | _, _, _, _ => none
                            | _ => none
                          else if 0xDC00 ≤ n ∧ n < 0xE000 then none
                          else (parseStringBody fuel rest2).map (fun p => (Char.ofNat n :: p.1, p.2))
                      | _, _, _, _ => none
                  | _ => none
                else none
          else if c.toNat < 0x20 then none
          else (parseStringBody fuel rest).map (fun p => (c :: p.1, p.2))

/-- Numeric value of a digit list, most significant first. -/
def digitsToNat (ds : List Char) : Nat := ds.foldl (fun acc c => acc * 10 + digitVal c) 0

/-- JSON number at the head of the input, following the anchored stdlib
regular expression: optional minus, then 0 or a nonzero-led digit run, then
an optional fraction and an optional exponent. Returns the remaining input
after the longest match. -/
def parseNumber (cs : List Char) : Option (Json × List Char) :=
  let (neg, cs1) := match cs with | '-' :: t => (true, t) | _ => (false, cs)
  let (ds, rest) :=
    match cs1 with
    | '0' :: t => (['0'], t)
    | _ => (cs1.takeWhile isDigitC, cs1.dropWhile isDigitC)
  if ds.isEmpty then none
  else
    let (fds, rest1) :=
      match rest with
      | '.' :: t =>
          if (t.takeWhile isDigitC).isEmpty then (([] : List Char), rest)
          else (t.takeWhile isDigitC, t.dropWhile isDigitC)
      | _ => (([] : List Char), rest)
    let (expo, rest2) :=
      match rest1 with
      | e :: t =>
          if e = 'e' ∨ e = 'E' then
            let (esign, t1) := match t with
              | '-' :: u => ((-1 : Int), u)
              | '+' :: u => ((1 : Int), u)
              | _ => ((1 : Int), t)
            let eds := t1.takeWhile isDigitC
            if eds.isEmpty then ((0 : Int), rest1)
            else (esign * Int.ofNat (digitsToNat eds), t1.dropWhile isDigitC)
          else ((0 : Int), rest1)
      | _ => ((0 : Int), rest1)
    let mag : Int := Int.ofNat (digitsToNat (ds ++ fds))
    some (Json.num (if neg then -mag else mag) (expo - Int.ofNat fds.length), rest2)

mutual

/-- JSON value at the head of the input after optional whitespace; fuel bounds
the nesting recursion. Returns the value and the remaining input. -/
def parseValue : Nat → List Char → Option (Json × List Char)
  | 0, _ => none
  | fuel + 1, cs =>
      match skipWs cs with
      | [] => none
      | c :: rest =>
          if c = '"' then
            (parseStringBody (rest.length + 1) rest).map (fun p => (Json.str p.1, p.2))
          else if c = '{' then
            match skipWs rest with
            | '}' :: rest1 => some (Json.obj [], rest1)
            | inner => (parseMembers fuel inner).map (fun p => (Json.obj p.1, p.2))
          else if c = '[' then
            match skipWs rest with
            | ']' :: rest1 => some (Json.arr [], rest1)
            | inner => (parseElems fuel inner).map (fun p => (Json.arr p.1, p.2))
          else if c = 't' then
            if ['r', 'u', 'e'].isPrefixOf rest then some (Json.bool true, rest.drop 3) else none
          else if c = 'f' then
            if ['a', 'l', 's', 'e'].isPrefixOf rest then some (Json.bool false, rest.drop 4) else none
          else if c = 'n' then
            if ['u', 'l', 'l'].isPrefixOf rest then some (Json.null, rest.drop 3) else none
          else if c = '-' ∨ isDigitC c then parseNumber (c :: rest)
          else none

/-- Members of a nonempty JSON object, starting at the first key quote with
whitespace already skipped; consumes through the closing brace. -/
def parseMembers : Nat → List Char → Option (List (List Char × Json) × List Char)
  | 0, _ => none
  | fuel + 1, cs =>
      match cs with
      | '"' :: rest =>
          match parseStringBody (rest.length + 1) rest with
          | none => none
          | some (key, rest1) =>
              match skipWs rest1 with
              | ':' :: rest2 =>
                  match parseValue fuel rest2 with
                  | none => none
                  | some (v, rest3) =>
                      match skipWs rest3 with
                      | ',' :: rest4 =>
                          (parseMembers fuel (skipWs rest4)).map (fun p => ((key, v) :: p.1, p.2))
                      | '}' :: rest4 => some ([(key, v)], rest4)
                      | _ => none
              | _ => none
      | _ => none

/-- Elements of a nonempty JSON array, starting at the first element;
consumes through the closing bracket. -/
def parseElems : Nat → List Char → Option (List Json × List Char)
  | 0, _ => none
  | fuel + 1, cs =>
      match parseValue fuel cs with
      | none => none
      | some (v, rest) =>
          match skipWs rest with
          | ',' :: rest1 => (parseElems fuel rest1).map (fun p => (v :: p.1, p.2))
          | ']' :: rest1 => some ([v], rest1)
          | _ => none

end

/-- Python json.loads on a line: parse one value and require only whitespace
after it; none exactly when the call raises JSONDecodeError. -/
def loads (cs : List Char) : Option Json :=
  match parseValue (2 * cs.length + 2) cs with
  | some (v, rest) => if skipWs rest = [] then some v else none
  | none => none

/-! ### Stream events -/

/-- Logical stream event reconstructed from the upstream byte stream, as the
items that stream_llm_sync in consumers.py puts on the hand-off queue:
a content dict maps to ContentDelta, a done dict to Done (finish_reason is
none when the key is absent), an error dict to Error. -/
inductive StreamEvent where
  | ContentDelta (content : Json) : StreamEvent
  | Done (finish_reason : Option Json) : StreamEvent
  | Error (message : List Char) : StreamEvent

/-- Message text of the Python exception (TypeError, AttributeError or
KeyError) raised when a decoded JSON line does not have the dict/list shape
the relay indexes into; the code catches it in the enclosing except block and
reports str(e). The exact interpreter wording is abstracted to a fixed
nonempty string. -/
def pyExcMessage : List Char := "object does not support the access".data

/-- Handling of one successfully decoded JSON line, consumers.py lines
169-181: read choices, then choices[0].delta.content and
choices[0].finish_reason, emitting a ContentDelta for truthy content and a
terminal Done for truthy finish_reason; any shape mismatch raises, which the
enclosing except block turns into a terminal Error. Returns the emitted
events and whether the worker loop returns after the line. -/
def readChunk (v : Json) : List StreamEvent × Bool :=
  match v with
  | Json.obj fields =>
      let choices := (jsonGet fields "choices".data).getD (Json.arr [])
      if choices.truthy then
        match choices with
        | Json.arr [] => ([], false)
        | Json.arr (c0 :: _) =>
            match c0 with
            | Json.obj c0f =>
                let delta := (jsonGet c0f "delta".data).getD (Json.obj [])
                match delta with
                | Json.obj df =>
                    let content := (jsonGet df "content".data).getD (Json.str [])
                    let fr := jsonGet c0f "finish_reason".data
                    let evs := if content.truthy then [StreamEvent.ContentDelta content] else []
                    match fr with
                    | some r =>
                        if r.truthy then (evs ++ [StreamEvent.Done (some r)], true)
                        else (evs, false)
                    | none => (evs, false)
                | _ => ([StreamEvent.Error pyExcMessage], true)
            | _ => ([StreamEvent.Error pyExcMessage], true)
        | _ => ([StreamEvent.Error pyExcMessage], true)
      else ([], false)
  | _ => ([StreamEvent.Error pyExcMessage], true)

/-- Handling of one extracted line, consumers.py lines 150-184: skip the line
when it is empty, undecodable, blank after stripping or a comment; strip a
leading data tag; the literal DONE sentinel is terminal; a JSON decode
failure skips the line; otherwise hand the value to readChunk. -/
def processLine (lineBytes : List Nat) : List StreamEvent × Bool :=
  if lineBytes.isEmpty then ([], false)
  else
    match decodeUtf8 lineBytes with
    | none => ([], false)
    | some raw =>
        let t := pyStrip raw
        if t.isEmpty then ([], false)
        else if t.head? = some ':' then ([], false)
        else
          let t1 := if "data: ".data.isPrefixOf t then t.drop 6 else t
          if pyStrip t1 = "[DONE]".data then ([StreamEvent.Done none], true)
          else
            match loads t1 with
            | none => ([], false)
            | some v => readChunk v

/-! ### The line-buffering loop -/

/-- Split the buffer at the first line-feed byte, buffer.split of the code:
the line before the first byte 10 and the remainder after it, or none when no
line feed is present. -/
def splitLine : List Nat → Option (List Nat × List Nat)
  | [] => none
  | b :: bs =>
      if b = 10 then some ([], bs)
      else (splitLine bs).map (fun p => (b :: p.1, p.2))

/-- Result of draining all complete lines from the buffer. -/
structure DrainResult where
  events : List StreamEvent
  residual : List Nat
  terminated : Bool

/-- Fueled form of the inner while loop; the fuel only bounds the number of
iterations and is irrelevant once at least the buffer length. -/
def drainGo : Nat → List Nat → DrainResult
  | 0, buf => ⟨[], buf, false⟩
  | fuel + 1, buf =>
      match splitLine buf with
      | none => ⟨[], buf, false⟩
      | some (line, rest) =>
          let pr := processLine line
          if pr.2 then ⟨pr.1, rest, true⟩
          else
            let d := drainGo fuel rest
            ⟨pr.1 ++ d.events, d.residual, d.terminated⟩

/-- The inner while loop of the worker: as long as the buffer holds a line
feed, split off one line and process it; stop early when a line is terminal
(the Python code returns from the whole function there, abandoning the rest
of the buffer). -/
def drainBuffer (buf : List Nat) : DrainResult := drainGo buf.length buf

/-- Parser state of one stream: the residual bytes since the last line
boundary, and whether a terminal line has been seen (after which the worker
function has returned and consumes nothing further). -/
structure ParserState where
  buffer : List Nat
  terminated : Bool

/-- Initial parser state. -/
def initState : ParserState := ⟨[], false⟩

/-- Feed one received byte chunk: a no-op once terminated, otherwise append
to the buffer and drain complete lines. -/
def feed (s : ParserState) (chunk : List Nat) : ParserState × List StreamEvent :=
  if s.terminated then (s, [])
  else
    let d := drainBuffer (s.buffer ++ chunk)
    (⟨d.residual, d.terminated⟩, d.events)

/-- Feed a sequence of chunks in order, collecting all emitted events. -/
def runFrom (s : ParserState) : List (List Nat) → ParserState × List StreamEvent
  | [] => (s, [])
  | c :: cs =>
      let fc := feed s c
      let rc := runFrom fc.1 cs
      (rc.1, fc.2 ++ rc.2)

/-- One whole parsing run from the initial state. -/
def runFeed (chunks : List (List Nat)) : ParserState × List StreamEvent :=
  runFrom initState chunks

/-! ### The worker, consumers.py stream_llm_sync -/

/-- Upstream HTTP response as the worker sees it: the status code, the full
body text that api_response.text would read, and the byte chunks that
api_response.raw.stream would deliver. -/
structure UpstreamResponse where
  status : Nat
  body : List Char
  chunks : List (List Nat)

/-- Worker loop of consumers.py lines 124-190: a non-success status reads the
whole error body and queues a single Error without touching the byte stream;
otherwise every chunk is fed through the line buffer, and if the byte stream
ends without a terminal line a fallback Done with no finish_reason is queued. -/
def stream_llm_sync (resp : UpstreamResponse) : List StreamEvent :=
  if resp.status ≠ 200 then
    [StreamEvent.Error ("API error: ".data ++ resp.body)]
  else
    let res := runFeed resp.chunks
    if res.1.terminated then res.2 else res.2 ++ [StreamEvent.Done none]

/-! ### Delivery over the WebSocket, consumers.py ChatConsumer.receive -/

/-- Envelope sent over the WebSocket, consumers.py lines 197-238. -/
inductive WsMessage where
  | content (delta : Json) : WsMessage
  | done (finish : Json) : WsMessage
  | error (message : List Char) : WsMessage

/-- Delivery loop of consumers.py lines 197-238, consuming the queued events
in order: a truthy error breaks after sending an error envelope, truthy
content sends a content envelope and continues, done sends a done envelope
with finish_reason defaulted to the string stop and breaks. -/
def deliverLoop : List StreamEvent → List WsMessage
  | [] => []
  | StreamEvent.Error m :: rest =>
      if m.isEmpty then deliverLoop rest else [WsMessage.error m]
  | StreamEvent.ContentDelta c :: rest =>
      if c.truthy then WsMessage.content c :: deliverLoop rest else deliverLoop rest
  | StreamEvent.Done fr :: _ =>
      [WsMessage.done (match fr with | some r => r | none => Json.str "stop".data)]

/-! ### Credential gate, consumers.py ChatConsumer.receive lines 69-83 -/

/-- Per-user credential record as resolved from UserSettings; an empty
api_key models a falsy (unset) key. -/
structure UserSettings where
  api_key : List Char
  base_url : List Char

/-- Entry of ChatConsumer.receive after request decoding: a missing settings
row or a falsy api_key sends a single error envelope and returns before any
upstream request; otherwise the worker runs against the upstream response and
its queued events are delivered. The Bool records whether the upstream
request was opened. -/
def chatReceive (settingsLookup : Option UserSettings) (resp : UpstreamResponse) :
    Bool × List WsMessage :=
  match settingsLookup with
  | none =>
      (false, [WsMessage.error
        "API key not configured. Please configure your settings first.".data])
  | some s =>
      if s.api_key.isEmpty then
        (false, [WsMessage.error
          "API key not configured. Please add your API key in settings.".data])
      else (true, deliverLoop (stream_llm_sync resp))

/-! ### Base URL normalization, views.py 106-109, asgi_views.py 99-102,
consumers.py 86-89 -/

/-- Python u.rstrip with a slash argument: drop every trailing slash. -/
def rstripSlashes (u : List Char) : List Char :=
  (u.reverse.dropWhile (fun c => c = '/')).reverse

/-- Normalization applied to the configured base_url before the upstream
request: strip trailing slashes, then append the version suffix unless the
result already ends with it. -/
def normalizeBaseUrl (u : List Char) : List Char :=
  let u1 := rstripSlashes u
  if pyEndsWith "/v1".data u1 then u1 else u1 ++ "/v1".data

/-! ### The generator variant, views.py event_stream lines 159-209

The HTTP streaming view runs the same per-line logic but yields raw content
text instead of queueing events, and returns silently on the DONE sentinel or
a truthy finish_reason. Shape mismatches raise out of the generator body and
are caught by its outer except block. -/

/-- Outcome of one line in the generator variant: continue with the next
line, return from the generator, or raise out of the line loop. -/
inductive LineOut where
  | next : LineOut
  | stop : LineOut
  | raised : LineOut

/-- Handling of one successfully decoded JSON line in views.py lines 191-205:
the same field reads as readChunk, but content is yielded directly and a
truthy finish_reason just returns. -/
def viewsReadChunk (v : Json) : List Json × LineOut :=
  match v with
  | Json.obj fields =>
      let choices := (jsonGet fields "choices".data).getD (Json.arr [])
      if choices.truthy then
        match choices with
        | Json.arr [] => ([], LineOut.next)
        | Json.arr (c0 :: _) =>
            match c0 with
            | Json.obj c0f =>
                let delta := (jsonGet c0f "delta".data).getD (Json.obj [])
                match delta with
                | Json.obj df =>
                    let content := (jsonGet df "content".data).getD (Json.str [])
                    let fr := jsonGet c0f "finish_reason".data
                    let ys := if content.truthy then [content] else []
                    match fr with
                    | some r => if r.truthy then (ys, LineOut.stop) else (ys, LineOut.next)
                    | none => (ys, LineOut.next)
                | _ => ([], LineOut.raised)
            | _ => ([], LineOut.raised)
        | _ => ([], LineOut.raised)
      else ([], LineOut.next)
  | _ => ([], LineOut.raised)

/-- Handling of one extracted line in views.py lines 169-209. -/
def processLineViews (lineBytes : List Nat) : List Json × LineOut :=
  if lineBytes.isEmpty then ([], LineOut.next)
  else
    match decodeUtf8 lineBytes with
    | none => ([], LineOut.next)
    | some raw =>
        let t := pyStrip raw
        if t.isEmpty then ([], LineOut.next)
        else if t.head? = some ':' then ([], LineOut.next)
        else
          let t1 := if "data: ".data.isPrefixOf t then t.drop 6 else t
          if pyStrip t1 = "[DONE]".data then ([], LineOut.stop)
          else
            match loads t1 with
            | none => ([], LineOut.next)
            | some v => viewsReadChunk v

/-! ### Event classification -/

/-- Whether an event is an incremental content fragment. -/
def isDelta : StreamEvent → Bool
  | StreamEvent.ContentDelta _ => true
  | _ => false

/-- Whether an event is terminal (Done or Error). -/
def isTerminal : StreamEvent → Bool
  | StreamEvent.ContentDelta _ => false
  | _ => true

/-- Whether a list consists of content deltas only. -/
def deltasOnly (evs : List StreamEvent) : Bool := evs.all isDelta

/-! ### Feed-level lemmas -/

/-- Invariant of reachable parser states: terminated, or no complete line is
left buffered (the drain loop always consumes every full line). -/
def Inv (s : ParserState) : Prop := s.terminated = true ∨ splitLine s.buffer = none

/-! ### Auxiliary facts feeding the claim theorems -/

/-- UTF-8 bytes of an ASCII string, used to build concrete wire inputs. -/
def asciiBytes (s : String) : List Nat := s.data.map Char.toNat

/-- Decidable account of a line that reaches the json.loads call and fails
there: nonempty, decodable, not blank, not a comment, not the DONE sentinel
after tag stripping, and rejected by loads. -/
def lineInvalidJson (bs : List Nat) : Bool :=
  !bs.isEmpty &&
    match decodeUtf8 bs with
    | none => false
    | some raw =>
        let t := pyStrip raw
        !t.isEmpty && t.head? != some ':' &&
          (let t1 := if "data: ".data.isPrefixOf t then t.drop 6 else t
           !(pyStrip t1 == "[DONE]".data) && (loads t1).isNone)

/-! ### Proof development -/

theorem splitLine_rest_length : ∀ {buf line rest : List Nat},
    splitLine buf = some (line, rest) → rest.length < buf.length := by
  intro buf
  induction buf with
  | nil => intro line rest h; simp [splitLine] at h
  | cons b bs ih =>
      intro line rest h
      by_cases hb : b = 10
      · rw [splitLine, if_pos hb] at h
        simp only [Option.some.injEq, Prod.mk.injEq] at h
        rw [← h.2]
        simp [List.length_cons]
      · rw [splitLine, if_neg hb] at h
        cases hs : splitLine bs with
        | none => rw [hs] at h; simp at h
        | some p =>
            rw [hs] at h
            obtain ⟨p1, p2⟩ := p
            simp only [Option.map_some', Option.some.injEq, Prod.mk.injEq] at h
            have hlen := ih hs
            rw [← h.2]
            simp only [List.length_cons]
            omega

theorem drainGo_nil : ∀ n, drainGo n [] = ⟨[], [], false⟩ := by
  intro n
  cases n with
  | zero => rfl
  | succ m => rfl

theorem drainGo_fuel : ∀ f1 f2 buf, buf.length ≤ f1 → buf.length ≤ f2 →
    drainGo f1 buf = drainGo f2 buf := by
  intro f1
  induction f1 with
  | zero =>
      intro f2 buf h1 _
      have hb : buf = [] := List.length_eq_zero.mp (Nat.le_zero.mp h1)
      subst hb
      rw [drainGo_nil, drainGo_nil]
  | succ f ih =>
      intro f2 buf h1 h2
      cases f2 with
      | zero =>
          have hb : buf = [] := List.length_eq_zero.mp (Nat.le_zero.mp h2)
          subst hb
          rw [drainGo_nil, drainGo_nil]
      | succ g =>
          show drainGo (f + 1) buf = drainGo (g + 1) buf
          cases hs : splitLine buf with
          | none => simp only [drainGo, hs]
          | some p =>
              obtain ⟨line, rest⟩ := p
              have hr := splitLine_rest_length hs
              have hrec := ih g rest (by omega) (by omega)
              simp only [drainGo, hs, hrec]

/-- Unfolding equation of the buffer-draining loop. -/
theorem drainBuffer_eq (buf : List Nat) : drainBuffer buf =
    match splitLine buf with
    | none => ⟨[], buf, false⟩
    | some (line, rest) =>
        let pr := processLine line
        if pr.2 then ⟨pr.1, rest, true⟩
        else
          let d := drainBuffer rest
          ⟨pr.1 ++ d.events, d.residual, d.terminated⟩ := by
  cases hl : buf.length with
  | zero =>
      have hb : buf = [] := List.length_eq_zero.mp hl
      subst hb
      rfl
  | succ n =>
      unfold drainBuffer
      rw [hl]
      cases hs : splitLine buf with
      | none => simp only [drainGo, hs]
      | some p =>
          obtain ⟨line, rest⟩ := p
          have hr := splitLine_rest_length hs
          rw [hl] at hr
          have hrec : drainGo n rest = drainGo rest.length rest :=
            drainGo_fuel n rest.length rest (by omega) (by omega)
          simp only [drainGo, hs, hrec]

/-! ### Per-line case analysis -/

theorem readChunk_cases (v : Json) :
    readChunk v = ([], false) ∨
    (∃ c, c.truthy = true ∧ readChunk v = ([StreamEvent.ContentDelta c], false)) ∨
    (∃ c r, c.truthy = true ∧ r.truthy = true ∧
      readChunk v = ([StreamEvent.ContentDelta c, StreamEvent.Done (some r)], true)) ∨
    (∃ r, r.truthy = true ∧ readChunk v = ([StreamEvent.Done (some r)], true)) ∨
    readChunk v = ([StreamEvent.Error pyExcMessage], true) := by
  cases v with
  | null => right; right; right; right; rfl
  | bool b => right; right; right; right; rfl
  | num m e => right; right; right; right; rfl
  | str s => right; right; right; right; rfl
  | arr l => right; right; right; right; rfl
  | obj fields =>
      simp only [readChunk]
      split
      · split
        · left; rfl
        · rename_i c0 tl
          split
          · rename_i c0f
            split
            · rename_i df
              split
              · rename_i r
                split
                · rename_i hrt
                  split
                  · rename_i hct
                    right; right; left
                    exact ⟨_, _, hct, hrt, rfl⟩
                  · right; right; right; left
                    exact ⟨_, hrt, rfl⟩
                · rename_i hrf
                  split
                  · rename_i hct
                    right; left
                    exact ⟨_, hct, rfl⟩
                  · left; rfl
              · split
                · rename_i hct
                  right; left
                  exact ⟨_, hct, rfl⟩
                · left; rfl
            · right; right; right; right; rfl
          · right; right; right; right; rfl
        · right; right; right; right; rfl
      · left; rfl

theorem processLine_cases (l : List Nat) :
    processLine l = ([], false) ∨
    (∃ c, c.truthy = true ∧ processLine l = ([StreamEvent.ContentDelta c], false)) ∨
    (∃ c r, c.truthy = true ∧ r.truthy = true ∧
      processLine l = ([StreamEvent.ContentDelta c, StreamEvent.Done (some r)], true)) ∨
    (∃ r, r.truthy = true ∧ processLine l = ([StreamEvent.Done (some r)], true)) ∨
    processLine l = ([StreamEvent.Done none], true) ∨
    processLine l = ([StreamEvent.Error pyExcMessage], true) := by
  simp only [processLine]
  split
  · left; rfl
  · split
    · left; rfl
    · split
      · left; rfl
      · split
        · left; rfl
        · split <;>
          · split
            · right; right; right; right; left; rfl
            · split
              · left; rfl
              · rename_i v hv
                rcases readChunk_cases v with h | ⟨c, hc, h⟩ | ⟨c, r, hc, hr, h⟩ | ⟨r, hr, h⟩ | h
                · left; exact h
                · right; left; exact ⟨c, hc, h⟩
                · right; right; left; exact ⟨c, r, hc, hr, h⟩
                · right; right; right; left; exact ⟨r, hr, h⟩
                · right; right; right; right; right; exact h

/-! ### Buffer-splitting lemmas -/

theorem splitLine_some_append : ∀ {x : List Nat} {l r : List Nat} (y : List Nat),
    splitLine x = some (l, r) → splitLine (x ++ y) = some (l, r ++ y) := by
  intro x
  induction x with
  | nil => intro l r y h; simp [splitLine] at h
  | cons b bs ih =>
      intro l r y h
      by_cases hb : b = 10
      · rw [splitLine, if_pos hb] at h
        simp only [Option.some.injEq, Prod.mk.injEq] at h
        rw [List.cons_append, splitLine, if_pos hb, ← h.1, ← h.2]
      · rw [splitLine, if_neg hb] at h
        cases hs : splitLine bs with
        | none => rw [hs] at h; simp at h
        | some p =>
            obtain ⟨p1, p2⟩ := p
            rw [hs] at h
            simp only [Option.map_some', Option.some.injEq, Prod.mk.injEq] at h
            rw [List.cons_append, splitLine, if_neg hb, ih y hs]
            simp only [Option.map_some', Option.some.injEq, Prod.mk.injEq]
            exact ⟨h.1, by rw [← h.2]⟩

theorem splitLine_no_nl : ∀ {l : List Nat}, (10 : Nat) ∉ l →
    ∀ r : List Nat, splitLine (l ++ 10 :: r) = some (l, r) := by
  intro l
  induction l with
  | nil => intro _ r; simp [splitLine]
  | cons b bs ih =>
      intro hmem r
      have hb : b ≠ 10 := fun hb => hmem (hb ▸ List.mem_cons_self b bs)
      have hbs : (10 : Nat) ∉ bs := fun hm => hmem (List.mem_cons_of_mem b hm)
      rw [List.cons_append, splitLine, if_neg hb, ih hbs r]
      rfl

theorem splitLine_none_no_nl : ∀ {l : List Nat}, splitLine l = none → (10 : Nat) ∉ l := by
  intro l
  induction l with
  | nil => intro _ h; simp at h
  | cons b bs ih =>
      intro h
      by_cases hb : b = 10
      · rw [splitLine, if_pos hb] at h; simp at h
      · rw [splitLine, if_neg hb] at h
        cases hs : splitLine bs with
        | none =>
            intro hmem
            rcases List.mem_cons.mp hmem with h1 | h1
            · exact hb h1.symm
            · exact ih hs h1
        | some p => rw [hs] at h; simp at h

/-! ### Drain-loop lemmas -/

theorem drainBuffer_append : ∀ n (x : List Nat), x.length ≤ n → ∀ y : List Nat,
    ((drainBuffer x).terminated = true →
        (drainBuffer (x ++ y)).events = (drainBuffer x).events ∧
        (drainBuffer (x ++ y)).terminated = true) ∧
    ((drainBuffer x).terminated = false →
        drainBuffer (x ++ y) =
          ⟨(drainBuffer x).events ++ (drainBuffer ((drainBuffer x).residual ++ y)).events,
           (drainBuffer ((drainBuffer x).residual ++ y)).residual,
           (drainBuffer ((drainBuffer x).residual ++ y)).terminated⟩) := by
  intro n
  induction n with
  | zero =>
      intro x hx y
      have hx0 : x = [] := List.length_eq_zero.mp (Nat.le_zero.mp hx)
      subst hx0
      constructor
      · intro ht
        rw [drainBuffer_eq []] at ht
        simp [splitLine] at ht
      · intro _
        have hd : drainBuffer [] = ⟨[], [], false⟩ := by rw [drainBuffer_eq]; rfl
        rw [hd]
        simp
  | succ m ih =>
      intro x hx y
      cases hs : splitLine x with
      | none =>
          have hd : drainBuffer x = ⟨[], x, false⟩ := by
            rw [drainBuffer_eq x, hs]
          constructor
          · intro ht; rw [hd] at ht; simp at ht
          · intro _
            rw [hd]
            simp
      | some p =>
          obtain ⟨line, rest⟩ := p
          have hlen := splitLine_rest_length hs
          have hsy := splitLine_some_append y hs
          by_cases hterm : (processLine line).2 = true
          · have hd : drainBuffer x = ⟨(processLine line).1, rest, true⟩ := by
              rw [drainBuffer_eq x, hs]
              simp only [hterm, if_true]
            have hdy : drainBuffer (x ++ y) = ⟨(processLine line).1, rest ++ y, true⟩ := by
              rw [drainBuffer_eq (x ++ y), hsy]
              simp only [hterm, if_true]
            constructor
            · intro _; rw [hd, hdy]; exact ⟨rfl, rfl⟩
            · intro ht; rw [hd] at ht; simp at ht
          · have hterm2 : (processLine line).2 = false := by
              cases h2 : (processLine line).2
              · rfl
              · exact absurd h2 hterm
            have hd : drainBuffer x =
                ⟨(processLine line).1 ++ (drainBuffer rest).events,
                 (drainBuffer rest).residual, (drainBuffer rest).terminated⟩ := by
              rw [drainBuffer_eq x, hs]
              simp only [hterm2]
              simp
            have hdy : drainBuffer (x ++ y) =
                ⟨(processLine line).1 ++ (drainBuffer (rest ++ y)).events,
                 (drainBuffer (rest ++ y)).residual, (drainBuffer (rest ++ y)).terminated⟩ := by
              rw [drainBuffer_eq (x ++ y), hsy]
              simp only [hterm2]
              simp
            have ihr := ih rest (by omega) y
            constructor
            · intro ht
              rw [hd] at ht
              have hrt : (drainBuffer rest).terminated = true := ht
              obtain ⟨he, ht2⟩ := ihr.1 hrt
              rw [hdy, hd]
              constructor
              · simp [he]
              · exact ht2
            · intro ht
              rw [hd] at ht
              have hrt : (drainBuffer rest).terminated = false := ht
              have hrec := ihr.2 hrt
              rw [hdy, hd, hrec]
              simp

/-- Wrapper of the append decomposition at exact length. -/
theorem drainBuffer_append_of (x y : List Nat) :
    ((drainBuffer x).terminated = true →
        (drainBuffer (x ++ y)).events = (drainBuffer x).events ∧
        (drainBuffer (x ++ y)).terminated = true) ∧
    ((drainBuffer x).terminated = false →
        drainBuffer (x ++ y) =
          ⟨(drainBuffer x).events ++ (drainBuffer ((drainBuffer x).residual ++ y)).events,
           (drainBuffer ((drainBuffer x).residual ++ y)).residual,
           (drainBuffer ((drainBuffer x).residual ++ y)).terminated⟩) :=
  drainBuffer_append x.length x (Nat.le_refl _) y

theorem drainBuffer_residual : ∀ n (buf : List Nat), buf.length ≤ n →
    (drainBuffer buf).terminated = false →
    splitLine (drainBuffer buf).residual = none := by
  intro n
  induction n with
  | zero =>
      intro buf hx _
      have hx0 : buf = [] := List.length_eq_zero.mp (Nat.le_zero.mp hx)
      subst hx0
      have hd : drainBuffer [] = ⟨[], [], false⟩ := by rw [drainBuffer_eq]; rfl
      rw [hd]
      rfl
  | succ m ih =>
      intro buf hx ht
      cases hs : splitLine buf with
      | none =>
          have hd : drainBuffer buf = ⟨[], buf, false⟩ := by rw [drainBuffer_eq buf, hs]
          rw [hd]
          exact hs
      | some p =>
          obtain ⟨line, rest⟩ := p
          have hlen := splitLine_rest_length hs
          by_cases hterm : (processLine line).2 = true
          · have hd : drainBuffer buf = ⟨(processLine line).1, rest, true⟩ := by
              rw [drainBuffer_eq buf, hs]
              simp only [hterm, if_true]
            rw [hd] at ht
            simp at ht
          · have hterm2 : (processLine line).2 = false := by
              cases h2 : (processLine line).2
              · rfl
              · exact absurd h2 hterm
            have hd : drainBuffer buf =
                ⟨(processLine line).1 ++ (drainBuffer rest).events,
                 (drainBuffer rest).residual, (drainBuffer rest).terminated⟩ := by
              rw [drainBuffer_eq buf, hs]
              simp only [hterm2]
              simp
            rw [hd] at ht ⊢
            exact ih rest (by omega) ht

/-! ### Shape of the emitted events -/

theorem processLine_shape (l : List Nat) :
    ((processLine l).2 = false → deltasOnly (processLine l).1 = true) ∧
    ((processLine l).2 = true → ∃ pre e, (processLine l).1 = pre ++ [e] ∧
      deltasOnly pre = true ∧ isTerminal e = true) := by
  rcases processLine_cases l with h | ⟨c, _, h⟩ | ⟨c, r, _, _, h⟩ | ⟨r, _, h⟩ | h | h <;>
    rw [h] <;> constructor <;> intro ht
  · rfl
  · simp at ht
  · rfl
  · simp at ht
  · simp at ht
  · exact ⟨[StreamEvent.ContentDelta c], StreamEvent.Done (some r), rfl, rfl, rfl⟩
  · simp at ht
  · exact ⟨[], StreamEvent.Done (some r), rfl, rfl, rfl⟩
  · simp at ht
  · exact ⟨[], StreamEvent.Done none, rfl, rfl, rfl⟩
  · simp at ht
  · exact ⟨[], StreamEvent.Error pyExcMessage, rfl, rfl, rfl⟩

theorem processLine_done_truthy (l : List Nat) (r : Json) :
    StreamEvent.Done (some r) ∈ (processLine l).1 → r.truthy = true := by
  intro hm
  rcases processLine_cases l with h | ⟨c, _, h⟩ | ⟨c, r0, _, hr, h⟩ | ⟨r0, hr, h⟩ | h | h <;>
    rw [h] at hm <;> simp at hm
  · rw [hm]; exact hr
  · rw [hm]; exact hr

theorem drainBuffer_shape : ∀ n (buf : List Nat), buf.length ≤ n →
    ((drainBuffer buf).terminated = false → deltasOnly (drainBuffer buf).events = true) ∧
    ((drainBuffer buf).terminated = true → ∃ pre e, (drainBuffer buf).events = pre ++ [e] ∧
      deltasOnly pre = true ∧ isTerminal e = true) := by
  intro n
  induction n with
  | zero =>
      intro buf hx
      have hx0 : buf = [] := List.length_eq_zero.mp (Nat.le_zero.mp hx)
      subst hx0
      have hd : drainBuffer [] = ⟨[], [], false⟩ := by rw [drainBuffer_eq]; rfl
      rw [hd]
      exact ⟨fun _ => rfl, fun ht => by simp at ht⟩
  | succ m ih =>
      intro buf hx
      cases hs : splitLine buf with
      | none =>
          have hd : drainBuffer buf = ⟨[], buf, false⟩ := by rw [drainBuffer_eq buf, hs]
          rw [hd]
          exact ⟨fun _ => rfl, fun ht => by simp at ht⟩
      | some p =>
          obtain ⟨line, rest⟩ := p
          have hlen := splitLine_rest_length hs
          by_cases hterm : (processLine line).2 = true
          · have hd : drainBuffer buf = ⟨(processLine line).1, rest, true⟩ := by
              rw [drainBuffer_eq buf, hs]
              simp only [hterm, if_true]
            rw [hd]
            exact ⟨fun ht => by simp at ht, fun _ => (processLine_shape line).2 hterm⟩
          · have hterm2 : (processLine line).2 = false := by
              cases h2 : (processLine line).2
              · rfl
              · exact absurd h2 hterm
            have hdel := (processLine_shape line).1 hterm2
            have hd : drainBuffer buf =
                ⟨(processLine line).1 ++ (drainBuffer rest).events,
                 (drainBuffer rest).residual, (drainBuffer rest).terminated⟩ := by
              rw [drainBuffer_eq buf, hs]
              simp only [hterm2]
              simp
            have ihr := ih rest (by omega)
            rw [hd]
            constructor
            · intro ht
              have := ihr.1 ht
              simp only [deltasOnly, List.all_append, Bool.and_eq_true] at *
              exact ⟨hdel, this⟩
            · intro ht
              obtain ⟨pre, e, hev, hpre, he⟩ := ihr.2 ht
              refine ⟨(processLine line).1 ++ pre, e, ?_, ?_, he⟩
              · rw [hev, List.append_assoc]
              · simp only [deltasOnly, List.all_append, Bool.and_eq_true] at *
                exact ⟨hdel, hpre⟩

theorem drainBuffer_done_truthy : ∀ n (buf : List Nat), buf.length ≤ n → ∀ r : Json,
    StreamEvent.Done (some r) ∈ (drainBuffer buf).events → r.truthy = true := by
  intro n
  induction n with
  | zero =>
      intro buf hx r hm
      have hx0 : buf = [] := List.length_eq_zero.mp (Nat.le_zero.mp hx)
      subst hx0
      have hd : drainBuffer [] = ⟨[], [], false⟩ := by rw [drainBuffer_eq]; rfl
      rw [hd] at hm
      simp at hm
  | succ m ih =>
      intro buf hx r hm
      cases hs : splitLine buf with
      | none =>
          have hd : drainBuffer buf = ⟨[], buf, false⟩ := by rw [drainBuffer_eq buf, hs]
          rw [hd] at hm
          simp at hm
      | some p =>
          obtain ⟨line, rest⟩ := p
          have hlen := splitLine_rest_length hs
          by_cases hterm : (processLine line).2 = true
          · have hd : drainBuffer buf = ⟨(processLine line).1, rest, true⟩ := by
              rw [drainBuffer_eq buf, hs]
              simp only [hterm, if_true]
            rw [hd] at hm
            exact processLine_done_truthy line r hm
          · have hterm2 : (processLine line).2 = false := by
              cases h2 : (processLine line).2
              · rfl
              · exact absurd h2 hterm
            have hd : drainBuffer buf =
                ⟨(processLine line).1 ++ (drainBuffer rest).events,
                 (drainBuffer rest).residual, (drainBuffer rest).terminated⟩ := by
              rw [drainBuffer_eq buf, hs]
              simp only [hterm2]
              simp
            rw [hd] at hm
            rcases List.mem_append.mp hm with h1 | h1
            · exact processLine_done_truthy line r h1
            · exact ih rest (by omega) r h1

theorem initState_inv : Inv initState := Or.inr rfl

theorem feed_inv (s : ParserState) (c : List Nat) (h : Inv s) : Inv (feed s c).1 := by
  unfold feed
  by_cases ht : s.terminated = true
  · simp only [ht, if_true]
    exact h
  · have ht2 : s.terminated = false := by
      cases h2 : s.terminated
      · rfl
      · exact absurd h2 ht
    simp only [ht2, Bool.false_eq_true, if_false]
    cases hdt : (drainBuffer (s.buffer ++ c)).terminated
    · right
      exact drainBuffer_residual (s.buffer ++ c).length _ (Nat.le_refl _) hdt
    · left; rfl

theorem feed_nil (s : ParserState) (h : Inv s) : feed s [] = (s, []) := by
  obtain ⟨buf, t⟩ := s
  cases t
  · have hsl : splitLine buf = none := by
      rcases h with h1 | h1
      · simp at h1
      · exact h1
    unfold feed
    simp only [Bool.false_eq_true, if_false]
    have hd : drainBuffer (buf ++ []) = ⟨[], buf, false⟩ := by
      rw [List.append_nil, drainBuffer_eq buf, hsl]
    rw [hd]
  · rfl

theorem feed_append (s : ParserState) (a b : List Nat) :
    (feed s (a ++ b)).2 = (feed s a).2 ++ (feed (feed s a).1 b).2 ∧
    (feed s (a ++ b)).1.terminated = (feed (feed s a).1 b).1.terminated ∧
    ((feed (feed s a).1 b).1.terminated = false →
      (feed s (a ++ b)).1 = (feed (feed s a).1 b).1) := by
  obtain ⟨buf, t⟩ := s
  cases t
  · have hfa : feed ⟨buf, false⟩ a =
        (⟨(drainBuffer (buf ++ a)).residual, (drainBuffer (buf ++ a)).terminated⟩,
         (drainBuffer (buf ++ a)).events) := by
      unfold feed
      simp
    cases hdt : (drainBuffer (buf ++ a)).terminated
    · -- first drain leaves the stream open: the second feed drains residual ++ b
      have hap := (drainBuffer_append_of (buf ++ a) b).2 hdt
      have hfb : feed (feed ⟨buf, false⟩ a).1 b =
          (⟨(drainBuffer ((drainBuffer (buf ++ a)).residual ++ b)).residual,
            (drainBuffer ((drainBuffer (buf ++ a)).residual ++ b)).terminated⟩,
           (drainBuffer ((drainBuffer (buf ++ a)).residual ++ b)).events) := by
        rw [hfa]
        unfold feed
        simp only [hdt, Bool.false_eq_true, if_false]
      have hfab : feed (⟨buf, false⟩ : ParserState) (a ++ b) =
          (⟨(drainBuffer ((drainBuffer (buf ++ a)).residual ++ b)).residual,
            (drainBuffer ((drainBuffer (buf ++ a)).residual ++ b)).terminated⟩,
           (drainBuffer (buf ++ a)).events ++
             (drainBuffer ((drainBuffer (buf ++ a)).residual ++ b)).events) := by
        unfold feed
        simp only [Bool.false_eq_true, if_false]
        rw [← List.append_assoc, hap]
      rw [hfab, hfb, hfa]
      exact ⟨rfl, rfl, fun _ => rfl⟩
    · -- first drain already terminated: the a ++ b feed stops at the same line
      have hap := (drainBuffer_append_of (buf ++ a) b).1 hdt
      have hfb : feed (feed ⟨buf, false⟩ a).1 b = ((feed ⟨buf, false⟩ a).1, []) := by
        rw [hfa]
        unfold feed
        simp only [hdt, if_true]
      have hfab : feed (⟨buf, false⟩ : ParserState) (a ++ b) =
          (⟨(drainBuffer ((buf ++ a) ++ b)).residual, (drainBuffer ((buf ++ a) ++ b)).terminated⟩,
           (drainBuffer ((buf ++ a) ++ b)).events) := by
        unfold feed
        simp only [Bool.false_eq_true, if_false]
        rw [← List.append_assoc]
      rw [hfab, hfb, hfa]
      refine ⟨?_, ?_, ?_⟩
      · simp only [hap.1, List.append_nil]
      · simp only [hap.2, hdt]
      · intro hh
        simp [hdt] at hh
  · -- already terminated: every feed is a no-op
    have hall : ∀ x, feed (⟨buf, true⟩ : ParserState) x = (⟨buf, true⟩, []) := by
      intro x
      rfl
    rw [hall (a ++ b), hall a, hall b]
    exact ⟨rfl, rfl, fun _ => rfl⟩

theorem runFrom_join : ∀ (cs : List (List Nat)) (s : ParserState), Inv s →
    (runFrom s cs).2 = (feed s cs.flatten).2 ∧
    (runFrom s cs).1.terminated = (feed s cs.flatten).1.terminated ∧
    ((feed s cs.flatten).1.terminated = false → (runFrom s cs).1 = (feed s cs.flatten).1) := by
  intro cs
  induction cs with
  | nil =>
      intro s hinv
      have h := feed_nil s hinv
      simp only [runFrom, List.flatten_nil]
      rw [h]
      exact ⟨rfl, rfl, fun _ => rfl⟩
  | cons c cs ih =>
      intro s hinv
      have hinv1 := feed_inv s c hinv
      have hih := ih (feed s c).1 hinv1
      have hfa := feed_append s c cs.flatten
      have hjoin : (c :: cs).flatten = c ++ cs.flatten := by simp
      constructor
      · show (feed s c).2 ++ (runFrom (feed s c).1 cs).2 = (feed s ((c :: cs).flatten)).2
        rw [hjoin, hfa.1, hih.1]
      constructor
      · show (runFrom (feed s c).1 cs).1.terminated = (feed s ((c :: cs).flatten)).1.terminated
        rw [hjoin, hfa.2.1, hih.2.1]
      · intro hterm
        rw [hjoin] at hterm ⊢
        have hterm2 : (feed (feed s c).1 cs.flatten).1.terminated = false := by
          rw [← hfa.2.1]
          exact hterm
        show (runFrom (feed s c).1 cs).1 = (feed s (c ++ cs.flatten)).1
        rw [hfa.2.2 hterm2, hih.2.2 hterm2]

theorem runFeed_join (cs : List (List Nat)) :
    (runFeed cs).2 = (drainBuffer cs.flatten).events ∧
    (runFeed cs).1.terminated = (drainBuffer cs.flatten).terminated := by
  have h := runFrom_join cs initState initState_inv
  have hfeed : feed initState cs.flatten =
      (⟨(drainBuffer cs.flatten).residual, (drainBuffer cs.flatten).terminated⟩,
       (drainBuffer cs.flatten).events) := by
    unfold feed initState
    simp
  unfold runFeed
  rw [hfeed] at h
  exact ⟨h.1, h.2.1⟩

theorem deltasOnly_map : ∀ {evs : List StreamEvent}, deltasOnly evs = true →
    ∃ ds : List Json, evs = ds.map StreamEvent.ContentDelta := by
  intro evs
  induction evs with
  | nil => intro _; exact ⟨[], rfl⟩
  | cons e rest ih =>
      intro h
      simp only [deltasOnly, List.all_cons, Bool.and_eq_true] at h
      obtain ⟨ds, hds⟩ := ih h.2
      cases e with
      | ContentDelta c => exact ⟨c :: ds, by rw [List.map_cons, hds]⟩
      | Done fr => simp [isDelta] at h
      | Error m => simp [isDelta] at h

theorem dropWhile_head_not {α : Type} {p : α → Bool} :
    ∀ {l : List α} {c : α} {t : List α}, l.dropWhile p = c :: t → p c = false := by
  intro l
  induction l with
  | nil => intro c t h; simp [List.dropWhile] at h
  | cons a as ih =>
      intro c t h
      rw [List.dropWhile] at h
      cases hp : p a with
      | true => rw [hp] at h; exact ih h
      | false =>
          rw [hp] at h
          simp only [List.cons.injEq] at h
          rw [← h.1]
          exact hp

theorem pyEndsWith_append (s x : List Char) : pyEndsWith s (x ++ s) = true := by
  unfold pyEndsWith
  rw [List.reverse_append]
  exact List.isPrefixOf_iff_prefix.mpr (List.prefix_append _ _)

theorem rstripSlashes_no_slash (u : List Char) :
    pyEndsWith ['/'] (rstripSlashes u) = false := by
  unfold pyEndsWith rstripSlashes
  rw [List.reverse_reverse]
  cases hd : u.reverse.dropWhile (fun c => c = '/') with
  | nil => rfl
  | cons c t =>
      have hc := dropWhile_head_not hd
      have hc2 : ¬('/' = c) := by
        intro hh
        rw [← hh] at hc
        simp at hc
      simp [List.isPrefixOf, hc2]

theorem lineInvalidJson_skips (bs : List Nat) (h : lineInvalidJson bs = true) :
    processLine bs = ([], false) := by
  unfold lineInvalidJson at h
  cases he : bs.isEmpty with
  | true => rw [he] at h; simp at h
  | false =>
      rw [he] at h
      simp only [Bool.not_false, Bool.true_and] at h
      cases hdec : decodeUtf8 bs with
      | none =>
          try rw [hdec] at h
          simp at h
      | some raw =>
          try rw [hdec] at h
          dsimp only at h
          simp only [Bool.and_eq_true] at h
          obtain ⟨⟨hne, hcol⟩, hdone, hload⟩ := h
          simp only [Bool.not_eq_eq_eq_not, Bool.not_true] at hne
          simp only [bne_iff_ne, ne_eq] at hcol
          simp only [Bool.not_eq_eq_eq_not, Bool.not_true, beq_eq_false_iff_ne, ne_eq] at hdone
          simp only [Option.isNone_iff_eq_none] at hload
          simp only [List.isPrefixOf_iff_prefix] at hdone hload
          simp [processLine, he, hdec, hne, hcol, hdone, hload]

theorem viewsReadChunk_agrees (v : Json) (c r : Json)
    (h : readChunk v = ([StreamEvent.ContentDelta c, StreamEvent.Done (some r)], true)) :
    viewsReadChunk v = ([c], LineOut.stop) := by
  cases v with
  | null => simp [readChunk] at h
  | bool b => simp [readChunk] at h
  | num m e => simp [readChunk] at h
  | str s => simp [readChunk] at h
  | arr l => simp [readChunk] at h
  | obj fields =>
      simp only [readChunk] at h
      simp only [viewsReadChunk]
      cases hc : (jsonGet fields "choices".data).getD (Json.arr []) with
      | arr l =>
          cases l with
          | nil =>
              try simp only [hc] at h
              split at h <;> simp_all
          | cons c0 tl =>
              try simp only [hc] at h ⊢
              rw [if_pos (show (Json.arr (c0 :: tl)).truthy = true from rfl)] at h ⊢
              cases c0 with
              | obj c0f =>
                  try dsimp only at h ⊢
                  cases hdl : (jsonGet c0f "delta".data).getD (Json.obj []) with
                  | obj df =>
                      try simp only [hdl] at h ⊢
                      try dsimp only at h ⊢
                      cases hfr : jsonGet c0f "finish_reason".data with
                      | none =>
                          try simp only [hfr] at h
                          try dsimp only at h
                          simp_all
                      | some r0 =>
                          try simp only [hfr] at h ⊢
                          try dsimp only at h ⊢
                          by_cases hrt : r0.truthy = true
                          · rw [if_pos hrt] at h ⊢
                            by_cases hct :
                                ((jsonGet df "content".data).getD (Json.str [])).truthy = true
                            · rw [if_pos hct] at h ⊢
                              simp only [List.cons_append, List.nil_append, Prod.mk.injEq,
                                List.cons.injEq, StreamEvent.ContentDelta.injEq,
                                StreamEvent.Done.injEq, Option.some.injEq, and_true] at h
                              rw [h.1]
                            · rw [if_neg hct] at h
                              simp at h
                          · rw [if_neg hrt] at h
                            simp at h
                  | null =>
                      try simp only [hdl] at h
                      simp_all
                  | bool b =>
                      try simp only [hdl] at h
                      simp_all
                  | num m e =>
                      try simp only [hdl] at h
                      simp_all
                  | str s =>
                      try simp only [hdl] at h
                      simp_all
                  | arr l2 =>
                      try simp only [hdl] at h
                      simp_all
              | null => simp_all
              | bool b => simp_all
              | num m e => simp_all
              | str s => simp_all
              | arr l2 => simp_all
      | null =>
          try simp only [hc] at h
          split at h <;> simp_all
      | bool b =>
          try simp only [hc] at h
          split at h <;> simp_all
      | num m e =>
          try simp only [hc] at h
          split at h <;> simp_all
      | str s =>
          try simp only [hc] at h
          split at h <;> simp_all
      | obj f2 =>
          try simp only [hc] at h
          split at h <;> simp_all

theorem processLine_views_agrees (l : List Nat) (c r : Json)
    (h : processLine l = ([StreamEvent.ContentDelta c, StreamEvent.Done (some r)], true)) :
    processLineViews l = ([c], LineOut.stop) := by
  unfold processLine at h
  unfold processLineViews
  cases he : l.isEmpty with
  | true => simp [he] at h
  | false =>
      simp only [he, Bool.false_eq_true, if_false] at h ⊢
      cases hdec : decodeUtf8 l with
      | none => simp [hdec] at h
      | some raw =>
          simp only [hdec] at h ⊢
          by_cases hne : (pyStrip raw).isEmpty = true
          · simp [hne] at h
          · rw [if_neg hne] at h ⊢
            by_cases hcol : (pyStrip raw).head? = some ':'
            · simp [hcol] at h
            · rw [if_neg hcol] at h ⊢
              by_cases hdone :
                  pyStrip (if "data: ".data.isPrefixOf (pyStrip raw) then
                    (pyStrip raw).drop 6 else pyStrip raw) = "[DONE]".data
              · rw [if_pos hdone] at h
                simp at h
              · rw [if_neg hdone] at h ⊢
                cases hload : loads (if "data: ".data.isPrefixOf (pyStrip raw) then
                    (pyStrip raw).drop 6 else pyStrip raw) with
                | none =>
                    try simp only [hload] at h
                    simp at h
                | some v =>
                    try simp only [hload] at h ⊢
                    exact viewsReadChunk_agrees v c r h

theorem truthy_ne_null {r : Json} (h : r.truthy = true) : r ≠ Json.null := by
  intro hn
  rw [hn] at h
  simp [Json.truthy] at h

theorem stream_done_truthy (resp : UpstreamResponse) (r : Json)
    (h : StreamEvent.Done (some r) ∈ stream_llm_sync resp) : r.truthy = true := by
  unfold stream_llm_sync at h
  by_cases hst : resp.status ≠ 200
  · rw [if_pos hst] at h
    simp at h
  · rw [if_neg hst] at h
    dsimp only at h
    have hj := runFeed_join resp.chunks
    cases hterm : (runFeed resp.chunks).1.terminated with
    | true =>
        rw [hterm] at h
        simp only [if_true] at h
        rw [hj.1] at h
        exact drainBuffer_done_truthy resp.chunks.flatten.length _ (Nat.le_refl _) r h
    | false =>
        rw [hterm] at h
        simp only [Bool.false_eq_true, if_false] at h
        rcases List.mem_append.mp h with h1 | h1
        · rw [hj.1] at h1
          exact drainBuffer_done_truthy resp.chunks.flatten.length _ (Nat.le_refl _) r h1
        · simp at h1

theorem deliverLoop_done_mem : ∀ (evs : List StreamEvent) (f : Json),
    WsMessage.done f ∈ deliverLoop evs →
    ∃ fr, StreamEvent.Done fr ∈ evs ∧
      f = (match fr with | some r => r | none => Json.str "stop".data) := by
  intro evs
  induction evs with
  | nil => intro f h; simp [deliverLoop] at h
  | cons e rest ih =>
      intro f h
      cases e with
      | Error m =>
          simp only [deliverLoop] at h
          cases hm : m.isEmpty with
          | true =>
              rw [if_pos hm] at h
              obtain ⟨fr, hmem, hf⟩ := ih f h
              exact ⟨fr, List.mem_cons_of_mem _ hmem, hf⟩
          | false =>
              rw [if_neg (by simp [hm])] at h
              simp at h
      | ContentDelta c =>
          simp only [deliverLoop] at h
          cases hc : c.truthy with
          | true =>
              rw [if_pos hc] at h
              rcases List.mem_cons.mp h with h1 | h1
              · simp at h1
              · obtain ⟨fr, hmem, hf⟩ := ih f h1
                exact ⟨fr, List.mem_cons_of_mem _ hmem, hf⟩
          | false =>
              rw [if_neg (by simp [hc])] at h
              obtain ⟨fr, hmem, hf⟩ := ih f h
              exact ⟨fr, List.mem_cons_of_mem _ hmem, hf⟩
      | Done fr =>
          simp only [deliverLoop, List.mem_singleton, WsMessage.done.injEq] at h
          exact ⟨fr, List.mem_cons_self _ _, h⟩

/-! ### Claim theorems -/

/-- C1: for every sequence of byte chunks fed to one parsing loop, the
produced event sequence consists of zero or more ContentDelta events followed
by at most one terminal event (Done or Error), the terminal being present
exactly when the parser state is terminated; and once the stream is
terminated, feeding further bytes produces no events. -/
theorem parser_single_terminal (chunks : List (List Nat)) :
    (∃ pre tl, (runFeed chunks).2 = pre ++ tl ∧ deltasOnly pre = true ∧
      tl.length ≤ 1 ∧ (∀ e ∈ tl, isTerminal e = true) ∧
      ((runFeed chunks).1.terminated = true ↔ tl ≠ [])) ∧
    (∀ extra, (runFeed chunks).1.terminated = true →
      (feed (runFeed chunks).1 extra).2 = []) := by
  have hj := runFeed_join chunks
  constructor
  · cases hdt : (drainBuffer chunks.flatten).terminated with
    | false =>
        have hsh := (drainBuffer_shape chunks.flatten.length _ (Nat.le_refl _)).1 hdt
        refine ⟨(runFeed chunks).2, [], (List.append_nil _).symm, ?_, by simp, by simp, ?_⟩
        · rw [hj.1]; exact hsh
        · rw [hj.2, hdt]; simp
    | true =>
        obtain ⟨pre, e, hev, hpre, he⟩ :=
          (drainBuffer_shape chunks.flatten.length _ (Nat.le_refl _)).2 hdt
        refine ⟨pre, [e], ?_, hpre, by simp, ?_, ?_⟩
        · rw [hj.1, hev]
        · intro e2 he2
          simp only [List.mem_singleton] at he2
          rw [he2]
          exact he
        · rw [hj.2, hdt]; simp
  · intro extra ht
    unfold feed
    rw [if_pos ht]

/-- Witness for C1: after a terminal DONE line the parser is terminated and a
further feed yields no events. -/
theorem parser_single_terminal_witness :
    (feed (runFeed [asciiBytes "data: [DONE]\n"]).1 (asciiBytes "x")).2 = [] :=
  (parser_single_terminal [asciiBytes "data: [DONE]\n"]).2 (asciiBytes "x") rfl

/-- C2: feeding the parsing loop one overall byte sequence split at arbitrary
chunk boundaries yields the identical ordered event sequence. -/
theorem chunk_boundary_invariance (cs ds : List (List Nat))
    (h : cs.flatten = ds.flatten) : (runFeed cs).2 = (runFeed ds).2 := by
  rw [(runFeed_join cs).1, (runFeed_join ds).1, h]

/-- Witness for C2: the whole message in one chunk versus one byte per chunk
produce the same events. -/
theorem chunk_boundary_invariance_witness :
    ([asciiBytes "data: \x7b\"choices\":[\x7b\"delta\":\x7b\"content\":\"Hi\"\x7d\x7d]\x7d\n"] :
        List (List Nat)).flatten =
      ((asciiBytes "data: \x7b\"choices\":[\x7b\"delta\":\x7b\"content\":\"Hi\"\x7d\x7d]\x7d\n").map
        (fun b => [b])).flatten ∧
    (runFeed [asciiBytes "data: \x7b\"choices\":[\x7b\"delta\":\x7b\"content\":\"Hi\"\x7d\x7d]\x7d\n"]).2 =
      (runFeed ((asciiBytes "data: \x7b\"choices\":[\x7b\"delta\":\x7b\"content\":\"Hi\"\x7d\x7d]\x7d\n").map
        (fun b => [b]))).2 :=
  ⟨by decide, chunk_boundary_invariance _ _ (by decide)⟩

/-- C3: when the upstream byte stream ends with success status and no
terminal line was seen, the worker appends a fallback Done with no
finish_reason after the content deltas, so the stream delivered to the sink
still terminates. -/
theorem eof_fallback_done (resp : UpstreamResponse) (hst : resp.status = 200)
    (hterm : (runFeed resp.chunks).1.terminated = false) :
    ∃ ds : List Json, stream_llm_sync resp =
      ds.map StreamEvent.ContentDelta ++ [StreamEvent.Done none] := by
  unfold stream_llm_sync
  rw [if_neg (by simp [hst])]
  dsimp only
  rw [if_neg (by simp [hterm])]
  have hj := runFeed_join resp.chunks
  have hdt : (drainBuffer resp.chunks.flatten).terminated = false := by
    rw [← hj.2]; exact hterm
  have hsh := (drainBuffer_shape resp.chunks.flatten.length _ (Nat.le_refl _)).1 hdt
  have hdel : deltasOnly (runFeed resp.chunks).2 = true := by
    rw [hj.1]; exact hsh
  obtain ⟨ds, hds⟩ := deltasOnly_map hdel
  exact ⟨ds, by rw [hds]⟩

/-- Witness for C3: two delta lines and then upstream EOF produce deltas
followed by the fallback Done. -/
theorem eof_fallback_done_witness :
    (⟨200, [], [asciiBytes "data: \x7b\"choices\":[\x7b\"delta\":\x7b\"content\":\"a\"\x7d\x7d]\x7d\n",
        asciiBytes "data: \x7b\"choices\":[\x7b\"delta\":\x7b\"content\":\"b\"\x7d\x7d]\x7d\n"]⟩ :
      UpstreamResponse).status = 200 ∧
    ∃ ds : List Json,
      stream_llm_sync ⟨200, [],
        [asciiBytes "data: \x7b\"choices\":[\x7b\"delta\":\x7b\"content\":\"a\"\x7d\x7d]\x7d\n",
         asciiBytes "data: \x7b\"choices\":[\x7b\"delta\":\x7b\"content\":\"b\"\x7d\x7d]\x7d\n"]⟩ =
        ds.map StreamEvent.ContentDelta ++ [StreamEvent.Done none] :=
  ⟨rfl, eof_fallback_done _ rfl rfl⟩

/-- C4: the delta line for Hi followed by the DONE line, each
newline-terminated, produce exactly ContentDelta Hi and then Done with no
finish_reason. -/
theorem scenario_a_events :
    stream_llm_sync ⟨200, [],
      [asciiBytes "data: \x7b\"choices\":[\x7b\"delta\":\x7b\"content\":\"Hi\"\x7d\x7d]\x7d\n",
       asciiBytes "data: [DONE]\n"]⟩ =
      [StreamEvent.ContentDelta (Json.str "Hi".data), StreamEvent.Done none] := rfl

/-- C5: a non-success upstream status yields exactly one Error event carrying
the full error body, zero ContentDelta events, and a result independent of
the response byte stream, which is never read. -/
theorem upstream_error_single_event (st : Nat) (body : List Char)
    (cs cs2 : List (List Nat)) (h : st ≠ 200) :
    stream_llm_sync ⟨st, body, cs⟩ = [StreamEvent.Error ("API error: ".data ++ body)] ∧
    (∀ c : Json, StreamEvent.ContentDelta c ∉ stream_llm_sync ⟨st, body, cs⟩) ∧
    stream_llm_sync ⟨st, body, cs⟩ = stream_llm_sync ⟨st, body, cs2⟩ := by
  have he : ∀ cz : List (List Nat),
      stream_llm_sync ⟨st, body, cz⟩ = [StreamEvent.Error ("API error: ".data ++ body)] := by
    intro cz
    unfold stream_llm_sync
    dsimp only
    rw [if_pos h]
  refine ⟨he cs, ?_, by rw [he cs, he cs2]⟩
  intro c
  rw [he cs]
  simp

/-- Witness for C5: status 401 with an error body produces the single Error
event holding that body. -/
theorem upstream_error_single_event_witness :
    (401 ≠ 200) ∧
    stream_llm_sync ⟨401, "\x7b\"error\":\"bad key\"\x7d".data, [asciiBytes "data: x\n"]⟩ =
      [StreamEvent.Error ("API error: ".data ++ "\x7b\"error\":\"bad key\"\x7d".data)] :=
  ⟨by decide,
   (upstream_error_single_event 401 ("\x7b\"error\":\"bad key\"\x7d".data)
     [asciiBytes "data: x\n"] [] (by decide)).1⟩

/-- C6: a line whose JSON decoding fails, placed between two valid delta
lines, is skipped without dropping either delta and without terminating the
stream. -/
theorem malformed_line_tolerance (l1 x l2 : List Nat) (c1 c2 : Json)
    (hn1 : (10 : Nat) ∉ l1) (hnx : (10 : Nat) ∉ x) (hn2 : (10 : Nat) ∉ l2)
    (h1 : processLine l1 = ([StreamEvent.ContentDelta c1], false))
    (hx : lineInvalidJson x = true)
    (h2 : processLine l2 = ([StreamEvent.ContentDelta c2], false)) :
    (runFeed [l1 ++ 10 :: (x ++ 10 :: (l2 ++ [10]))]).2 =
      [StreamEvent.ContentDelta c1, StreamEvent.ContentDelta c2] := by
  have hxp := lineInvalidJson_skips x hx
  rw [(runFeed_join [l1 ++ 10 :: (x ++ 10 :: (l2 ++ [10]))]).1]
  have hfl : ([l1 ++ 10 :: (x ++ 10 :: (l2 ++ [10]))] : List (List Nat)).flatten =
      l1 ++ 10 :: (x ++ 10 :: (l2 ++ [10])) := by simp
  rw [hfl]
  rw [drainBuffer_eq, splitLine_no_nl hn1]
  simp only [h1, Bool.false_eq_true, if_false]
  rw [drainBuffer_eq, splitLine_no_nl hnx]
  simp only [hxp, Bool.false_eq_true, if_false]
  rw [drainBuffer_eq, splitLine_no_nl hn2]
  simp only [h2, Bool.false_eq_true, if_false]
  rw [show drainBuffer [] = ⟨[], [], false⟩ from by rw [drainBuffer_eq]; rfl]
  simp

/-- Witness for C6: a concrete invalid JSON line between two delta lines. -/
theorem malformed_line_tolerance_witness :
    (runFeed [asciiBytes "data: \x7b\"choices\":[\x7b\"delta\":\x7b\"content\":\"a\"\x7d\x7d]\x7d" ++ 10 ::
        (asciiBytes "data: oops" ++ 10 ::
          (asciiBytes "data: \x7b\"choices\":[\x7b\"delta\":\x7b\"content\":\"b\"\x7d\x7d]\x7d" ++ [10]))]).2 =
      [StreamEvent.ContentDelta (Json.str "a".data),
       StreamEvent.ContentDelta (Json.str "b".data)] :=
  malformed_line_tolerance _ _ _ _ _ (by decide) (by decide) (by decide) rfl rfl rfl

/-- C7: base URL normalization always produces a URL ending in /v1, the
slash-stripped URL never ends with a slash, and the suffix is appended
exactly when the stripped URL does not already end with /v1. -/
theorem base_url_normalization (u : List Char) :
    pyEndsWith "/v1".data (normalizeBaseUrl u) = true ∧
    pyEndsWith "/".data (rstripSlashes u) = false ∧
    (pyEndsWith "/v1".data (rstripSlashes u) = false →
      normalizeBaseUrl u = rstripSlashes u ++ "/v1".data) := by
  refine ⟨?_, ?_, ?_⟩
  · unfold normalizeBaseUrl
    by_cases he : pyEndsWith "/v1".data (rstripSlashes u) = true
    · rw [if_pos he]; exact he
    · rw [if_neg he]; exact pyEndsWith_append _ _
  · exact rstripSlashes_no_slash u
  · intro he
    unfold normalizeBaseUrl
    rw [if_neg (by simp [he])]

/-- Witness for C7: a URL with a trailing slash and no version suffix gets
the suffix appended after stripping. -/
theorem base_url_normalization_witness :
    normalizeBaseUrl "https://openrouter.ai/api/".data =
      rstripSlashes "https://openrouter.ai/api/".data ++ "/v1".data :=
  (base_url_normalization _).2.2 (by decide)

/-- C8: a missing credential record or an unset api_key produces exactly one
error envelope and the upstream request is never opened. -/
theorem missing_credentials_no_upstream (lookup : Option UserSettings)
    (resp : UpstreamResponse)
    (h : lookup = none ∨ ∃ s, lookup = some s ∧ s.api_key = []) :
    (chatReceive lookup resp).1 = false ∧
    ∃ m, (chatReceive lookup resp).2 = [WsMessage.error m] := by
  rcases h with h | ⟨s, hs, hk⟩
  · subst h
    exact ⟨rfl, ⟨_, rfl⟩⟩
  · subst hs
    unfold chatReceive
    dsimp only
    rw [if_pos (by simp [hk])]
    exact ⟨rfl, ⟨_, rfl⟩⟩

/-- Witness for C8: the missing-settings case. -/
theorem missing_credentials_no_upstream_witness :
    (chatReceive none ⟨200, [], []⟩).1 = false ∧
    ∃ m, (chatReceive none ⟨200, [], []⟩).2 = [WsMessage.error m] :=
  missing_credentials_no_upstream none ⟨200, [], []⟩ (Or.inl rfl)

/-- C9: when one decoded line carries both a content delta and a
finish_reason, the ContentDelta event strictly precedes the Done event, and
the generator variant likewise yields the content before returning. -/
theorem delta_before_done (bs : List Nat) (c : Json) (fr : Option Json)
    (hc : StreamEvent.ContentDelta c ∈ (processLine bs).1)
    (hd : StreamEvent.Done fr ∈ (processLine bs).1) :
    (processLine bs).1 = [StreamEvent.ContentDelta c, StreamEvent.Done fr] ∧
    processLineViews bs = ([c], LineOut.stop) := by
  rcases processLine_cases bs with h | ⟨c0, _, h⟩ | ⟨c0, r0, _, hr0, h⟩ | ⟨r0, _, h⟩ | h | h <;>
    rw [h] at hc hd <;> simp at hc hd
  subst hc
  subst hd
  constructor
  · rw [h]
  · exact processLine_views_agrees bs _ _ h

/-- Witness for C9: a line with both content Hi and finish_reason stop. -/
theorem delta_before_done_witness :
    (processLine (asciiBytes
        "data: \x7b\"choices\":[\x7b\"delta\":\x7b\"content\":\"Hi\"\x7d,\"finish_reason\":\"stop\"\x7d]\x7d")).1 =
      [StreamEvent.ContentDelta (Json.str "Hi".data),
       StreamEvent.Done (some (Json.str "stop".data))] ∧
    processLineViews (asciiBytes
        "data: \x7b\"choices\":[\x7b\"delta\":\x7b\"content\":\"Hi\"\x7d,\"finish_reason\":\"stop\"\x7d]\x7d") =
      ([Json.str "Hi".data], LineOut.stop) :=
  delta_before_done _ _ _ (List.Mem.head _) (List.Mem.tail _ (List.Mem.head _))

/-- C10: over the WebSocket transport every done envelope carries a non-null
finish_reason, and a parser Done without finish_reason is sent with the
literal string stop. -/
theorem done_envelope_nonnull :
    (∀ (resp : UpstreamResponse) (f : Json),
        WsMessage.done f ∈ deliverLoop (stream_llm_sync resp) → f ≠ Json.null) ∧
    (∀ rest : List StreamEvent,
        deliverLoop (StreamEvent.Done none :: rest) =
          [WsMessage.done (Json.str "stop".data)]) := by
  constructor
  · intro resp f hmem
    obtain ⟨fr, hfr, hf⟩ := deliverLoop_done_mem _ f hmem
    cases fr with
    | none =>
        rw [hf]
        simp
    | some r =>
        have ht := stream_done_truthy resp r hfr
        rw [hf]
        exact truthy_ne_null ht
  · intro rest
    rfl

/-- Witness for C10: the DONE-sentinel stream delivers a done envelope whose
finish_reason is the string stop, which is not null. -/
theorem done_envelope_nonnull_witness :
    Json.str "stop".data ≠ Json.null ∧
    deliverLoop [StreamEvent.Done none] = [WsMessage.done (Json.str "stop".data)] :=
  ⟨done_envelope_nonnull.1 ⟨200, [], [asciiBytes "data: [DONE]\n"]⟩ (Json.str "stop".data)
      (List.Mem.head _),
   done_envelope_nonnull.2 []⟩

end ChatRelay
